import Mathlib

/-!
Verification of the streaming HTML element extractor of ln2epub
(src/_archive.go: HtmlFind, HtmlKeyInAttr, HtmlFindByAttr, HtmlCheckAttrs,
HtmlFindAll).

Embedding notes.  A token stream is a finite list of structural tokens
followed by a terminal sentinel: either clean end of stream (eof) or a
tokenizer error other than io.EOF (err).  The Go tokenizer error state is
sticky: once Next returns an ErrorToken, every later Next returns the same
ErrorToken again, and an ErrorToken renders as the empty string, so an
iteration of the extraction loop on it changes no state.  HtmlFind and
HtmlFindAll set loop = false only when Err() == io.EOF, hence on a non-EOF
error the loop repeats forever with unchanged state; we record that outcome
as Outcome.diverged.  The out-of-range slice access tagDepth[n] with n = -1
in HtmlFindAll (a Go runtime panic) is recorded as Outcome.crashed.
-/

namespace LnEpub

/-- A structural token of the upstream tokenizer: open tag, close tag,
self-closing tag, or any other content (text, comment, doctype), carried
with the data needed to render it back. -/
inductive Tok : Type
  | tagOpen (name : String) (attrs : List (String × String))
  | tagClose (name : String)
  | tagSelf (name : String) (attrs : List (String × String))
  | text (s : String)
deriving DecidableEq, Repr

/-- Terminal sentinel of a finite stream: clean end of stream, or a
tokenizer error other than io.EOF. -/
inductive Terminal : Type
  | eof
  | err
deriving DecidableEq, Repr

/-- Outcome of one extraction call: a value, a runtime crash (the Go
index-out-of-range panic), or a loop that never terminates. -/
inductive Outcome (α : Type) : Type
  | ok (a : α)
  | crashed
  | diverged
deriving DecidableEq, Repr

/-- Rendering of an attribute list inside a tag, mirroring what the Go
Token.String method produces for parsed attributes. -/
def renderAttrs : List (String × String) → String
  | [] => ""
  | (k, v) :: rest => " " ++ k ++ "=\"" ++ v ++ "\"" ++ renderAttrs rest

/-- Rendering of one token back to markup text, the model of the Go
Token.String method used by both extractors. -/
def Tok.render : Tok → String
  | Tok.tagOpen n a => "<" ++ n ++ renderAttrs a ++ ">"
  | Tok.tagClose n => "</" ++ n ++ ">"
  | Tok.tagSelf n a => "<" ++ n ++ renderAttrs a ++ "/>"
  | Tok.text s => s

/-- Concatenation of the renderings of a token list, in stream order. -/
def rendersAll : List Tok → String
  | [] => ""
  | t :: ts => t.render ++ rendersAll ts

/-- An attribute predicate, the type of the Go attrCond argument. -/
abbrev AttrPred := String → String → Bool

/-- The test strings.Contains(v, a single space) of the Go code: some
character of the string is a space. -/
def goContainsSpace (s : String) : Bool :=
  s.data.any fun c => c == ' '

/-- Splitting a character list at every single space character, keeping
empty pieces, exactly as the Go strings.Split with a one-space separator
does. -/
def splitChars : List Char → List (List Char)
  | [] => [[]]
  | c :: rest =>
      if c == ' ' then [] :: splitChars rest
      else
        match splitChars rest with
        | [] => [[c]]
        | piece :: pieces => (c :: piece) :: pieces

/-- The Go strings.Split(v, a single space), as a list of strings. -/
def goSplitSpace (s : String) : List String :=
  (splitChars s.data).map fun cs => String.mk cs

/-- HtmlKeyInAttr from src/_archive.go lines 66 to 82: a predicate true when
the key matches and the value, split on single spaces when it contains one,
has the target as one piece, else equals the target exactly. -/
def htmlKeyInAttr (key value : String) : AttrPred := fun k v =>
  if k == key then
    if goContainsSpace v then (goSplitSpace v).any fun piece => piece == value
    else v == value
  else false

/-- HtmlCheckAttrs from src/_archive.go lines 91 to 101: true for a missing
predicate, else true when some attribute pair satisfies it. -/
def htmlCheckAttrs (f : Option AttrPred) (attrs : List (String × String)) : Bool :=
  match f with
  | none => true
  | some f => attrs.any fun kv => f kv.1 kv.2

/-- State of the HtmlFind loop: the depth counter, the recorded capture
depth (minus one as the not-yet-matched sentinel), and the output builder. -/
structure FindSt : Type where
  depth : Int
  tagDepth : Int
  ret : String
deriving DecidableEq, Repr

/-- The conditional write at src/_archive.go lines 56 to 58: append the
token rendering to the output when tagDepth is not the sentinel. -/
def writeIf (st : FindSt) (t : Tok) : FindSt :=
  if st.tagDepth = -1 then st else ⟨st.depth, st.tagDepth, st.ret ++ t.render⟩

/-- One iteration of the HtmlFind loop body (src/_archive.go lines 12 to 58)
on one token; the Bool is the stop flag (loop set to false).  The two Go
continue statements, on a name-matching open tag with a nil predicate and on
any name-matching self-closing tag, skip the conditional write. -/
def findStep (tag : String) (p : Option AttrPred) (st : FindSt) : Tok → FindSt × Bool
  | Tok.tagOpen n a =>
      let d := st.depth + 1
      if n = tag then
        match p with
        | none => (⟨d, d, st.ret⟩, false)
        | some f =>
            let td := if a.any (fun kv => f kv.1 kv.2) then d else st.tagDepth
            (writeIf ⟨d, td, st.ret⟩ (Tok.tagOpen n a), false)
      else (writeIf ⟨d, st.tagDepth, st.ret⟩ (Tok.tagOpen n a), false)
  | Tok.tagClose n =>
      (writeIf ⟨st.depth - 1, st.tagDepth, st.ret⟩ (Tok.tagClose n),
        decide (n = tag ∧ st.depth = st.tagDepth))
  | Tok.tagSelf n a =>
      if n = tag then (st, false)
      else (writeIf st (Tok.tagSelf n a), false)
  | Tok.text s => (writeIf st (Tok.text s), false)

/-- The HtmlFind loop over the remaining tokens; at the end of the list the
terminal decides between returning the output (eof) and spinning on the
sticky error token forever (err). -/
def findRun (tag : String) (p : Option AttrPred) (term : Terminal) :
    FindSt → List Tok → Outcome String
  | st, [] =>
      match term with
      | Terminal.eof => Outcome.ok st.ret
      | Terminal.err => Outcome.diverged
  | st, t :: ts =>
      let s2 := findStep tag p st t
      if s2.2 then Outcome.ok s2.1.ret else findRun tag p term s2.1 ts

/-- HtmlFind from src/_archive.go lines 6 to 62. -/
def htmlFind (ts : List Tok) (term : Terminal) (tag : String) (p : Option AttrPred) :
    Outcome String :=
  findRun tag p term ⟨0, -1, ""⟩ ts

/-- HtmlFindByAttr from src/_archive.go lines 85 to 87. -/
def htmlFindByAttr (ts : List Tok) (term : Terminal) (tag key value : String) :
    Outcome String :=
  htmlFind ts term tag (some (htmlKeyInAttr key value))

/-- One open capture of the HtmlFindAll loop: the depth recorded at its
opening tag and its accumulated buffer (one entry of tagDepth and h). -/
structure Frame : Type where
  openDepth : Int
  buf : String
deriving DecidableEq, Repr

/-- State of the HtmlFindAll loop: the depth counter, the open frames
(most recently opened last), and the finished fragments. -/
structure FindAllSt : Type where
  depth : Int
  frames : List Frame
  ret : List String
deriving DecidableEq, Repr

/-- The write loop at src/_archive.go lines 139 to 142: append a rendering
to the buffer of every open frame. -/
def pour (s : String) (fs : List Frame) : List Frame :=
  fs.map fun fr => ⟨fr.openDepth, fr.buf ++ s⟩

/-- Tail of one HtmlFindAll iteration (src/_archive.go lines 139 to 150):
write the token rendering into every open buffer, then, when the push flag
is set, move the newest buffer to the results and drop its frame. -/
def emit (st : FindAllSt) (t : Tok) (push : Bool) : FindAllSt :=
  let fs := pour t.render st.frames
  if push then ⟨st.depth, fs.dropLast, st.ret ++ (fs.getLast?.map Frame.buf).toList⟩
  else ⟨st.depth, fs, st.ret⟩

/-- One iteration of the HtmlFindAll loop body (src/_archive.go lines 112 to
151) on one token.  On a close tag whose name equals the searched tag the Go
code reads tagDepth[n]; with no open frame n is minus one and that access is
out of range, modeled as none. -/
def findAllStep (tag : String) (p : Option AttrPred) (st : FindAllSt) :
    Tok → Option FindAllSt
  | Tok.tagSelf n a =>
      if n = tag ∧ htmlCheckAttrs p a = true then
        some (emit ⟨st.depth, st.frames ++ [⟨1, ""⟩], st.ret⟩ (Tok.tagSelf n a) true)
      else some (emit st (Tok.tagSelf n a) false)
  | Tok.tagOpen n a =>
      let d := st.depth + 1
      if n = tag ∧ htmlCheckAttrs p a = true then
        some (emit ⟨d, st.frames ++ [⟨d, ""⟩], st.ret⟩ (Tok.tagOpen n a) false)
      else some (emit ⟨d, st.frames, st.ret⟩ (Tok.tagOpen n a) false)
  | Tok.tagClose n =>
      if n = tag then
        match st.frames.getLast? with
        | none => none
        | some fr =>
            some (emit ⟨st.depth - 1, st.frames, st.ret⟩ (Tok.tagClose n)
              (decide (st.depth = fr.openDepth)))
      else some (emit ⟨st.depth - 1, st.frames, st.ret⟩ (Tok.tagClose n) false)
  | Tok.text s => some (emit st (Tok.text s) false)

/-- The HtmlFindAll loop over the remaining tokens; none propagates the
out-of-range access. -/
def findAllRun (tag : String) (p : Option AttrPred) : FindAllSt → List Tok → Option FindAllSt
  | st, [] => some st
  | st, t :: ts =>
      match findAllStep tag p st t with
      | none => none
      | some st2 => findAllRun tag p st2 ts

/-- HtmlFindAll from src/_archive.go lines 103 to 154. -/
def htmlFindAll (ts : List Tok) (term : Terminal) (tag : String) (p : Option AttrPred) :
    Outcome (List String) :=
  match findAllRun tag p ⟨0, [], []⟩ ts with
  | none => Outcome.crashed
  | some st =>
      match term with
      | Terminal.eof => Outcome.ok st.ret
      | Terminal.err => Outcome.diverged

/-- True when the token is a tag token (open, close or self-closing) whose
name is the searched tag. -/
def namedTag (tag : String) : Tok → Bool
  | Tok.tagOpen n _ => n == tag
  | Tok.tagClose n => n == tag
  | Tok.tagSelf n _ => n == tag
  | Tok.text _ => false

/-- True when the list has no tag token named tag. -/
def tagFree (tag : String) (ts : List Tok) : Bool :=
  ts.all fun t => !namedTag tag t

/-- True when the token is an open tag that HtmlFind would record a capture
depth for: name equal to tag, and the predicate absent or satisfied by some
attribute pair. -/
def opensCapture (tag : String) (p : Option AttrPred) : Tok → Bool
  | Tok.tagOpen n a => n == tag && htmlCheckAttrs p a
  | _ => false

/-- True when processing the token inside an active capture neither
re-records the capture depth nor skips the conditional write: open tags must
not match (name plus predicate) and self-closing tags must not carry the
searched name. -/
def noReset (tag : String) (p : Option AttrPred) : Tok → Bool
  | Tok.tagOpen n a => !(n == tag && htmlCheckAttrs p a)
  | Tok.tagSelf n _ => !(n == tag)
  | _ => true

/-- Balanced tag sequences: every open tag has its matching close tag inside
the list, with self-closing tags and other content free. -/
inductive Bal : List Tok → Prop
  | nil : Bal []
  | txt (s : String) (ts : List Tok) : Bal ts → Bal (Tok.text s :: ts)
  | self (n : String) (a : List (String × String)) (ts : List Tok) :
      Bal ts → Bal (Tok.tagSelf n a :: ts)
  | node (n : String) (a : List (String × String)) (body rest : List Tok) :
      Bal body → Bal rest → Bal (Tok.tagOpen n a :: (body ++ Tok.tagClose n :: rest))

theorem rendersAll_append (a b : List Tok) :
    rendersAll (a ++ b) = rendersAll a ++ rendersAll b := by
  induction a with
  | nil => simp [rendersAll]
  | cons t ts ih => simp [rendersAll, ih, String.append_assoc]

theorem pour_empty (fs : List Frame) : pour "" fs = fs := by
  induction fs with
  | nil => rfl
  | cons fr fs ih => simp only [pour, List.map_cons] at ih ⊢; simp [ih]

theorem pour_pour (s t : String) (fs : List Frame) :
    pour t (pour s fs) = pour (s ++ t) fs := by
  induction fs with
  | nil => rfl
  | cons fr fs ih => simp only [pour, List.map_cons] at ih ⊢; simp [ih, String.append_assoc]

theorem findRun_cons (tag : String) (p : Option AttrPred) (term : Terminal)
    (st : FindSt) (t : Tok) (ts : List Tok) :
    findRun tag p term st (t :: ts) =
      if (findStep tag p st t).2 then Outcome.ok (findStep tag p st t).1.ret
      else findRun tag p term (findStep tag p st t).1 ts := rfl

theorem findRun_ne_crashed (tag : String) (p : Option AttrPred) (term : Terminal) :
    ∀ (ts : List Tok) (st : FindSt), findRun tag p term st ts ≠ Outcome.crashed := by
  intro ts
  induction ts with
  | nil => intro st; cases term <;> simp [findRun]
  | cons t ts ih =>
      intro st
      rw [findRun_cons]
      split
      · simp
      · exact ih _

theorem tagFree_cons {tag : String} {t : Tok} {ts : List Tok} :
    tagFree tag (t :: ts) = true ↔ namedTag tag t = false ∧ tagFree tag ts = true := by
  simp [tagFree, List.all_cons, Bool.and_eq_true]

theorem tagFree_append {tag : String} {a b : List Tok} :
    tagFree tag (a ++ b) = true ↔ tagFree tag a = true ∧ tagFree tag b = true := by
  simp [tagFree, List.all_append, Bool.and_eq_true]

theorem find_gap (tag : String) (p : Option AttrPred) {g : List Tok} (hb : Bal g) :
    tagFree tag g = true →
    ∀ (d : Int) (r : String) (rest : List Tok) (term : Terminal),
      findRun tag p term ⟨d, -1, r⟩ (g ++ rest) = findRun tag p term ⟨d, -1, r⟩ rest := by
  induction hb with
  | nil => intro _ d r rest term; rfl
  | txt s ts _ ih =>
      intro hf d r rest term
      rw [tagFree_cons] at hf
      rw [List.cons_append, findRun_cons]
      have hstep : findStep tag p ⟨d, -1, r⟩ (Tok.text s) = (⟨d, -1, r⟩, false) := by
        simp [findStep, writeIf]
      rw [hstep]
      simpa using ih hf.2 d r rest term
  | self n a ts _ ih =>
      intro hf d r rest term
      rw [tagFree_cons] at hf
      have hn : n ≠ tag := by
        have := hf.1
        simpa [namedTag] using this
      rw [List.cons_append, findRun_cons]
      have hstep : findStep tag p ⟨d, -1, r⟩ (Tok.tagSelf n a) = (⟨d, -1, r⟩, false) := by
        simp [findStep, hn, writeIf]
      rw [hstep]
      simpa using ih hf.2 d r rest term
  | node n a body rest2 _ _ ihbody ihrest =>
      intro hf d r rest term
      rw [tagFree_cons] at hf
      obtain ⟨hn0, hf2⟩ := hf
      rw [tagFree_append] at hf2
      obtain ⟨hfbody, hf3⟩ := hf2
      rw [tagFree_cons] at hf3
      obtain ⟨-, hfrest⟩ := hf3
      have hn : n ≠ tag := by simpa [namedTag] using hn0
      rw [List.cons_append, findRun_cons]
      have hstep : findStep tag p ⟨d, -1, r⟩ (Tok.tagOpen n a) = (⟨d + 1, -1, r⟩, false) := by
        simp [findStep, hn, writeIf]
      rw [hstep]
      have hassoc : (body ++ Tok.tagClose n :: rest2) ++ rest =
          body ++ (Tok.tagClose n :: (rest2 ++ rest)) := by
        simp [List.append_assoc]
      simp only [Bool.false_eq_true, if_false, hassoc]
      rw [ihbody hfbody (d + 1) r _ term, findRun_cons]
      have hstep2 : findStep tag p ⟨d + 1, -1, r⟩ (Tok.tagClose n) = (⟨d, -1, r⟩, false) := by
        simp [findStep, hn, writeIf]
      rw [hstep2]
      simpa using ihrest hfrest d r rest term

theorem find_seg (tag : String) (p : Option AttrPred) {body : List Tok} (hb : Bal body) :
    (∀ t ∈ body, noReset tag p t = true) →
    ∀ (d td : Int) (r : String) (rest : List Tok) (term : Terminal), td ≠ -1 → td ≤ d →
      findRun tag p term ⟨d, td, r⟩ (body ++ rest) =
        findRun tag p term ⟨d, td, r ++ rendersAll body⟩ rest := by
  induction hb with
  | nil => intro _ d td r rest term _ _; simp [rendersAll]
  | txt s ts _ ih =>
      intro hnr d td r rest term htd hle
      have hts : ∀ t ∈ ts, noReset tag p t = true := fun t ht => hnr t (by simp [ht])
      rw [List.cons_append, findRun_cons]
      have hstep : findStep tag p ⟨d, td, r⟩ (Tok.text s) =
          (⟨d, td, r ++ (Tok.text s).render⟩, false) := by
        simp [findStep, writeIf, htd]
      rw [hstep]
      simp only [Bool.false_eq_true, if_false]
      rw [ih hts d td _ rest term htd hle]
      simp [rendersAll, String.append_assoc]
  | self n a ts _ ih =>
      intro hnr d td r rest term htd hle
      have hn : n ≠ tag := by
        have := hnr _ (List.mem_cons_self _ _)
        simpa [noReset] using this
      have hts : ∀ t ∈ ts, noReset tag p t = true := fun t ht => hnr t (by simp [ht])
      rw [List.cons_append, findRun_cons]
      have hstep : findStep tag p ⟨d, td, r⟩ (Tok.tagSelf n a) =
          (⟨d, td, r ++ (Tok.tagSelf n a).render⟩, false) := by
        simp [findStep, hn, writeIf, htd]
      rw [hstep]
      simp only [Bool.false_eq_true, if_false]
      rw [ih hts d td _ rest term htd hle]
      simp [rendersAll, String.append_assoc]
  | node n a body2 rest2 _ _ ihbody ihrest =>
      intro hnr d td r rest term htd hle
      have hhead := hnr _ (List.mem_cons_self _ _)
      have hko : (n == tag && htmlCheckAttrs p a) = false := by
        have h2 := hhead
        simp only [noReset, Bool.not_eq_true'] at h2
        exact h2
      have hnrb : ∀ t ∈ body2, noReset tag p t = true := fun t ht => hnr t (by simp [ht])
      have hnrr : ∀ t ∈ rest2, noReset tag p t = true := fun t ht => hnr t (by simp [ht])
      rw [List.cons_append, findRun_cons]
      have hstep : findStep tag p ⟨d, td, r⟩ (Tok.tagOpen n a) =
          (⟨d + 1, td, r ++ (Tok.tagOpen n a).render⟩, false) := by
        by_cases hn : n = tag
        · subst hn
          cases p with
          | none => simp [htmlCheckAttrs] at hko
          | some f =>
              have hany : (a.any fun kv => f kv.1 kv.2) = false := by
                simpa [htmlCheckAttrs] using hko
              simp [findStep, hany, writeIf, htd]
        · simp [findStep, hn, writeIf, htd]
      rw [hstep]
      have hassoc : (body2 ++ Tok.tagClose n :: rest2) ++ rest =
          body2 ++ (Tok.tagClose n :: (rest2 ++ rest)) := by
        simp [List.append_assoc]
      simp only [Bool.false_eq_true, if_false, hassoc]
      rw [ihbody hnrb (d + 1) td _ _ term htd (by omega), findRun_cons]
      have hne : ¬(d + 1 = td) := by omega
      have hstep2 : findStep tag p ⟨d + 1, td, r ++ (Tok.tagOpen n a).render ++ rendersAll body2⟩
          (Tok.tagClose n) =
          (⟨d, td, r ++ (Tok.tagOpen n a).render ++ rendersAll body2 ++
            (Tok.tagClose n).render⟩, false) := by
        simp [findStep, hne, writeIf, htd]
      rw [hstep2]
      simp only [Bool.false_eq_true, if_false]
      rw [ihrest hnrr d td _ rest term htd hle]
      have : r ++ (Tok.tagOpen n a).render ++ rendersAll body2 ++ (Tok.tagClose n).render ++
          rendersAll rest2 =
          r ++ rendersAll (Tok.tagOpen n a :: (body2 ++ Tok.tagClose n :: rest2)) := by
        simp [rendersAll, rendersAll_append, String.append_assoc]
      rw [this]

theorem find_nomatch (tag : String) (p : Option AttrPred) :
    ∀ (ts : List Tok), (∀ t ∈ ts, opensCapture tag p t = false) →
    ∀ d : Int, findRun tag p Terminal.eof ⟨d, -1, ""⟩ ts = Outcome.ok "" := by
  intro ts
  induction ts with
  | nil => intro _ d; rfl
  | cons t ts ih =>
      intro h d
      have hh := h t (List.mem_cons_self _ _)
      have ht : ∀ x ∈ ts, opensCapture tag p x = false := fun x hx => h x (by simp [hx])
      cases t with
      | tagOpen n a =>
          have hko : (n == tag && htmlCheckAttrs p a) = false := by
            simpa [opensCapture] using hh
          rw [findRun_cons]
          have hstep : findStep tag p ⟨d, -1, ""⟩ (Tok.tagOpen n a) =
              (⟨d + 1, -1, ""⟩, false) := by
            by_cases hn : n = tag
            · subst hn
              cases p with
              | none => simp [htmlCheckAttrs] at hko
              | some f =>
                  have hany : (a.any fun kv => f kv.1 kv.2) = false := by
                    simpa [htmlCheckAttrs] using hko
                  simp [findStep, hany, writeIf]
            · simp [findStep, hn, writeIf]
          rw [hstep]
          simpa using ih ht (d + 1)
      | tagClose n =>
          rw [findRun_cons]
          by_cases hs : n = tag ∧ d = -1
          · simp [findStep, hs, writeIf]
          · have hstep : findStep tag p ⟨d, -1, ""⟩ (Tok.tagClose n) =
                (⟨d - 1, -1, ""⟩, false) := by
              simp [findStep, hs, writeIf]
            rw [hstep]
            simpa using ih ht (d - 1)
      | tagSelf n a =>
          rw [findRun_cons]
          by_cases hn : n = tag
          · have hstep : findStep tag p ⟨d, -1, ""⟩ (Tok.tagSelf n a) = (⟨d, -1, ""⟩, false) := by
              simp [findStep, hn]
            rw [hstep]
            simpa using ih ht d
          · have hstep : findStep tag p ⟨d, -1, ""⟩ (Tok.tagSelf n a) = (⟨d, -1, ""⟩, false) := by
              simp [findStep, hn, writeIf]
            rw [hstep]
            simpa using ih ht d
      | text s =>
          rw [findRun_cons]
          have hstep : findStep tag p ⟨d, -1, ""⟩ (Tok.text s) = (⟨d, -1, ""⟩, false) := by
            simp [findStep, writeIf]
          rw [hstep]
          simpa using ih ht d

theorem findAllRun_cons (tag : String) (p : Option AttrPred) (st : FindAllSt)
    (t : Tok) (ts : List Tok) :
    findAllRun tag p st (t :: ts) =
      (findAllStep tag p st t).bind fun st2 => findAllRun tag p st2 ts := by
  show (match findAllStep tag p st t with
    | none => none
    | some st2 => findAllRun tag p st2 ts) = _
  cases findAllStep tag p st t <;> rfl

theorem findAllRun_append (tag : String) (p : Option AttrPred) :
    ∀ (l1 l2 : List Tok) (st : FindAllSt),
      findAllRun tag p st (l1 ++ l2) =
        (findAllRun tag p st l1).bind fun st2 => findAllRun tag p st2 l2 := by
  intro l1
  induction l1 with
  | nil => intro l2 st; rfl
  | cons t ts ih =>
      intro l2 st
      rw [List.cons_append, findAllRun_cons, findAllRun_cons]
      cases findAllStep tag p st t with
      | none => rfl
      | some st2 => simpa using ih l2 st2

theorem findAll_seg (tag : String) (p : Option AttrPred) {seg : List Tok} (hb : Bal seg) :
    tagFree tag seg = true →
    ∀ st : FindAllSt,
      findAllRun tag p st seg = some ⟨st.depth, pour (rendersAll seg) st.frames, st.ret⟩ := by
  induction hb with
  | nil =>
      intro _ st
      simp [findAllRun, rendersAll, pour_empty]
  | txt s ts _ ih =>
      intro hf st
      rw [tagFree_cons] at hf
      have hstep : findAllStep tag p st (Tok.text s) =
          some ⟨st.depth, pour (Tok.text s).render st.frames, st.ret⟩ := by
        simp [findAllStep, emit]
      rw [findAllRun_cons, hstep, Option.some_bind, ih hf.2]
      simp [pour_pour, rendersAll]
  | self n a ts _ ih =>
      intro hf st
      rw [tagFree_cons] at hf
      have hn : n ≠ tag := by simpa [namedTag] using hf.1
      have hstep : findAllStep tag p st (Tok.tagSelf n a) =
          some ⟨st.depth, pour (Tok.tagSelf n a).render st.frames, st.ret⟩ := by
        simp [findAllStep, hn, emit]
      rw [findAllRun_cons, hstep, Option.some_bind, ih hf.2]
      simp [pour_pour, rendersAll]
  | node n a body rest2 _ _ ihbody ihrest =>
      intro hf st
      rw [tagFree_cons] at hf
      obtain ⟨hn0, hf2⟩ := hf
      rw [tagFree_append] at hf2
      obtain ⟨hfbody, hf3⟩ := hf2
      rw [tagFree_cons] at hf3
      obtain ⟨-, hfrest⟩ := hf3
      have hn : n ≠ tag := by simpa [namedTag] using hn0
      have hstep : findAllStep tag p st (Tok.tagOpen n a) =
          some ⟨st.depth + 1, pour (Tok.tagOpen n a).render st.frames, st.ret⟩ := by
        simp [findAllStep, hn, emit]
      rw [findAllRun_cons, hstep, Option.some_bind, findAllRun_append, ihbody hfbody]
      simp only [Option.some_bind]
      have hstep2 : findAllStep tag p
          ⟨st.depth + 1, pour (rendersAll body) (pour (Tok.tagOpen n a).render st.frames), st.ret⟩
          (Tok.tagClose n) =
          some ⟨st.depth, pour (Tok.tagClose n).render
            (pour (rendersAll body) (pour (Tok.tagOpen n a).render st.frames)), st.ret⟩ := by
        simp [findAllStep, hn, emit]
      rw [findAllRun_cons, hstep2, Option.some_bind, ihrest hfrest]
      simp [pour_pour, rendersAll, rendersAll_append, String.append_assoc]

theorem findAll_elem (tag : String) (p : Option AttrPred) (a : List (String × String))
    {body : List Tok} (hb : Bal body) (hf : tagFree tag body = true)
    (ha : htmlCheckAttrs p a = true) (d : Int) (r : List String) :
    findAllRun tag p ⟨d, [], r⟩ (Tok.tagOpen tag a :: (body ++ [Tok.tagClose tag])) =
      some ⟨d, [], r ++ [rendersAll (Tok.tagOpen tag a :: (body ++ [Tok.tagClose tag]))]⟩ := by
  have hstep : findAllStep tag p ⟨d, [], r⟩ (Tok.tagOpen tag a) =
      some ⟨d + 1, [⟨d + 1, (Tok.tagOpen tag a).render⟩], r⟩ := by
    simp [findAllStep, ha, emit, pour]
  rw [findAllRun_cons, hstep, Option.some_bind, findAllRun_append, findAll_seg tag p hb hf]
  simp only [Option.some_bind]
  have hstep2 : findAllStep tag p
      ⟨d + 1, pour (rendersAll body) [⟨d + 1, (Tok.tagOpen tag a).render⟩], r⟩
      (Tok.tagClose tag) =
      some ⟨d, [],
        r ++ [(Tok.tagOpen tag a).render ++ rendersAll body ++ (Tok.tagClose tag).render]⟩ := by
    simp [findAllStep, pour, emit]
  rw [findAllRun_cons, hstep2, Option.some_bind]
  have hr : (Tok.tagOpen tag a).render ++ rendersAll body ++ (Tok.tagClose tag).render =
      rendersAll (Tok.tagOpen tag a :: (body ++ [Tok.tagClose tag])) := by
    simp [rendersAll, rendersAll_append, String.append_assoc]
  rw [show findAllRun tag p
      ⟨d, [], r ++ [(Tok.tagOpen tag a).render ++ rendersAll body ++ (Tok.tagClose tag).render]⟩
      [] = some ⟨d, [],
        r ++ [(Tok.tagOpen tag a).render ++ rendersAll body ++ (Tok.tagClose tag).render]⟩
    from rfl, hr]

theorem findAll_free (tag : String) (p : Option AttrPred) :
    ∀ (ts : List Tok), tagFree tag ts = true →
    ∀ (d : Int) (r : List String), ∃ d2 : Int,
      findAllRun tag p ⟨d, [], r⟩ ts = some ⟨d2, [], r⟩ := by
  intro ts
  induction ts with
  | nil => intro _ d r; exact ⟨d, rfl⟩
  | cons t ts ih =>
      intro h d r
      rw [tagFree_cons] at h
      obtain ⟨hh, ht⟩ := h
      cases t with
      | tagOpen n a =>
          have hn : n ≠ tag := by simpa [namedTag] using hh
          have hstep : findAllStep tag p ⟨d, [], r⟩ (Tok.tagOpen n a) =
              some ⟨d + 1, [], r⟩ := by
            simp [findAllStep, hn, emit, pour]
          obtain ⟨d2, hrun⟩ := ih ht (d + 1) r
          exact ⟨d2, by rw [findAllRun_cons, hstep, Option.some_bind, hrun]⟩
      | tagClose n =>
          have hn : n ≠ tag := by simpa [namedTag] using hh
          have hstep : findAllStep tag p ⟨d, [], r⟩ (Tok.tagClose n) =
              some ⟨d - 1, [], r⟩ := by
            simp [findAllStep, hn, emit, pour]
          obtain ⟨d2, hrun⟩ := ih ht (d - 1) r
          exact ⟨d2, by rw [findAllRun_cons, hstep, Option.some_bind, hrun]⟩
      | tagSelf n a =>
          have hn : n ≠ tag := by simpa [namedTag] using hh
          have hstep : findAllStep tag p ⟨d, [], r⟩ (Tok.tagSelf n a) =
              some ⟨d, [], r⟩ := by
            simp [findAllStep, hn, emit, pour]
          obtain ⟨d2, hrun⟩ := ih ht d r
          exact ⟨d2, by rw [findAllRun_cons, hstep, Option.some_bind, hrun]⟩
      | text s =>
          have hstep : findAllStep tag p ⟨d, [], r⟩ (Tok.text s) = some ⟨d, [], r⟩ := by
            simp [findAllStep, emit, pour]
          obtain ⟨d2, hrun⟩ := ih ht d r
          exact ⟨d2, by rw [findAllRun_cons, hstep, Option.some_bind, hrun]⟩

theorem tagFree_mem {tag : String} {ts : List Tok} (h : tagFree tag ts = true) :
    ∀ t ∈ ts, namedTag tag t = false := by
  intro t ht
  have h2 := List.all_eq_true.mp h t ht
  simpa using h2

theorem noReset_of_free {tag : String} {p : Option AttrPred} {t : Tok}
    (h : namedTag tag t = false) : noReset tag p t = true := by
  cases t with
  | tagOpen n a =>
      simp only [namedTag] at h
      simp [noReset, h]
  | tagSelf n a =>
      simp only [namedTag] at h
      simp [noReset, h]
  | tagClose n => rfl
  | text s => rfl

theorem opensCapture_of_free {tag : String} {p : Option AttrPred} {t : Tok}
    (h : namedTag tag t = false) : opensCapture tag p t = false := by
  cases t with
  | tagOpen n a =>
      simp only [namedTag] at h
      simp [opensCapture, h]
  | tagSelf n a => rfl
  | tagClose n => rfl
  | text s => rfl

/-- Shape of a stream made of sibling elements named tag, each satisfying
the predicate, separated by balanced gaps that hold no token named tag; the
second argument lists the token span of each element in document order. -/
inductive SibShape (tag : String) (p : Option AttrPred) : List Tok → List (List Tok) → Prop
  | base (g : List Tok) (hg : Bal g) (hgf : tagFree tag g = true) : SibShape tag p g []
  | elem (g : List Tok) (a : List (String × String)) (body rest : List Tok)
      (es : List (List Tok)) (hg : Bal g) (hgf : tagFree tag g = true)
      (ha : htmlCheckAttrs p a = true) (hb : Bal body) (hbf : tagFree tag body = true)
      (hrest : SibShape tag p rest es) :
      SibShape tag p (g ++ Tok.tagOpen tag a :: (body ++ Tok.tagClose tag :: rest))
        ((Tok.tagOpen tag a :: (body ++ [Tok.tagClose tag])) :: es)

theorem sib_run (tag : String) (p : Option AttrPred) {s : List Tok} {es : List (List Tok)}
    (h : SibShape tag p s es) :
    ∀ (d : Int) (r : List String), ∃ d2 : Int,
      findAllRun tag p ⟨d, [], r⟩ s = some ⟨d2, [], r ++ es.map rendersAll⟩ := by
  induction h with
  | base g hg hgf =>
      intro d r
      refine ⟨d, ?_⟩
      rw [findAll_seg tag p hg hgf]
      simp [pour]
  | elem g a body rest es hg hgf ha hb hbf hrest ih =>
      intro d r
      rw [findAllRun_append, findAll_seg tag p hg hgf]
      simp only [Option.some_bind, pour, List.map_nil]
      have hsplit : Tok.tagOpen tag a :: (body ++ Tok.tagClose tag :: rest) =
          (Tok.tagOpen tag a :: (body ++ [Tok.tagClose tag])) ++ rest := by
        simp [List.append_assoc]
      rw [hsplit, findAllRun_append, findAll_elem tag p a hb hbf ha d r]
      simp only [Option.some_bind]
      obtain ⟨d2, hrun⟩ :=
        ih d (r ++ [rendersAll (Tok.tagOpen tag a :: (body ++ [Tok.tagClose tag]))])
      rw [hrun]
      simp [List.append_assoc]

/-- C10: on a stream whose first two tokens are close tags named tagName,
the depth counter sinks to minus one and collides with the not-yet-matched
sentinel value of the capture depth, so HtmlFind stops consuming the stream
at the second close token and returns the empty string, even when a matching
element appears later in the stream. -/
theorem claim_C10 (tag : String) (p : Option AttrPred) (rest : List Tok) (term : Terminal) :
    htmlFind (Tok.tagClose tag :: Tok.tagClose tag :: rest) term tag p = Outcome.ok "" := by
  unfold htmlFind
  rw [findRun_cons]
  have h1 : findStep tag p ⟨0, -1, ""⟩ (Tok.tagClose tag) = (⟨-1, -1, ""⟩, false) := by
    simp [findStep, writeIf]
  rw [h1]
  simp only [Bool.false_eq_true, if_false]
  rw [findRun_cons]
  have h2 : findStep tag p ⟨-1, -1, ""⟩ (Tok.tagClose tag) = (⟨-2, -1, ""⟩, true) := by
    simp [findStep, writeIf]
  rw [h2]
  simp

/-- C9: HtmlFindByAttr is definitionally HtmlFind applied to the predicate
built by HtmlKeyInAttr on the same stream, so the two return the same
string for every tokenizer state, tag, key and value. -/
theorem claim_C9 (ts : List Tok) (term : Terminal) (tag key value : String) :
    htmlFindByAttr ts term tag key value =
      htmlFind ts term tag (some (htmlKeyInAttr key value)) := rfl

/-- C8: HtmlCheckAttrs is true immediately for a missing predicate, true
for a present predicate exactly when some attribute pair satisfies it, and
false on the empty attribute list. -/
theorem claim_C8 (f : AttrPred) (attrs : List (String × String)) :
    htmlCheckAttrs none attrs = true ∧
    (htmlCheckAttrs (some f) attrs = true ↔ ∃ kv ∈ attrs, f kv.1 kv.2 = true) ∧
    htmlCheckAttrs (some f) [] = false := by
  refine ⟨rfl, ?_, rfl⟩
  simp [htmlCheckAttrs, List.any_eq_true]

/-- C7: the predicate built by HtmlKeyInAttr rejects every pair with a
different key; on the bound key it splits a space-holding value on single
spaces and matches a piece exactly, else compares the whole value, as the
three class-list examples illustrate. -/
theorem claim_C7 (key target k v : String) :
    (htmlKeyInAttr key target k v = true ↔
      (k = key ∧ if goContainsSpace v = true then target ∈ goSplitSpace v else v = target)) ∧
    htmlKeyInAttr "class" "foo" "class" "bar foo baz" = true ∧
    htmlKeyInAttr "class" "foo" "class" "foobar" = false ∧
    htmlKeyInAttr "class" "foo" "class" "foo" = true := by
  refine ⟨?_, by decide, by decide, by decide⟩
  by_cases hk : k = key
  · subst hk
    by_cases hc : goContainsSpace v = true
    · simp [htmlKeyInAttr, hc, List.any_eq_true]
    · simp [htmlKeyInAttr, hc]
  · simp [htmlKeyInAttr, hk]

/-- C5: the code loops forever on a non-EOF tokenizer error instead of
treating it like clean end of stream: the loop flag is cleared only when the
error is io.EOF and the tokenizer error is sticky, so both extractors spin
without returning their partial output; evaluated here on concrete erroring
streams. -/
theorem claim_C5 :
    htmlFind [] Terminal.err "div" none = Outcome.diverged ∧
    htmlFind [Tok.tagOpen "div" [], Tok.text "x"] Terminal.err "div" none =
      Outcome.diverged ∧
    htmlFindAll [Tok.tagOpen "div" []] Terminal.err "div" none = Outcome.diverged := by
  refine ⟨by decide, by decide, by decide⟩

/-- C1 counterexample: a stream holding one close token named tagName makes
HtmlFindAll read tagDepth at index minus one, a runtime index-out-of-range
crash, so the multi-match extractor does not return the empty sequence on
this matchless input. -/
theorem claim_C1_cex :
    htmlFindAll [Tok.tagClose "div"] Terminal.eof "div" none = Outcome.crashed := by decide

/-- C1 amended: HtmlFind never crashes on any stream, and on a cleanly
ending stream in which no open token named tagName satisfies the predicate
(predicate-rejecting same-named opens and close tokens named tagName are
allowed) it returns the empty string; if moreover no token named tagName
appears at all, HtmlFindAll returns the empty sequence; the crash of
HtmlFindAll occurs only when a close token named tagName arrives with no
open capture frame. -/
theorem claim_C1 (ts : List Tok) (tag : String) (p : Option AttrPred)
    (hnomatch : ∀ t ∈ ts, opensCapture tag p t = false) :
    (∀ (us : List Tok) (u : Terminal) (q : String) (g : Option AttrPred),
      htmlFind us u q g ≠ Outcome.crashed) ∧
    htmlFind ts Terminal.eof tag p = Outcome.ok "" ∧
    (tagFree tag ts = true → htmlFindAll ts Terminal.eof tag p = Outcome.ok []) := by
  refine ⟨fun us u q g => findRun_ne_crashed q g u us _, ?_, ?_⟩
  · exact find_nomatch tag p ts hnomatch 0
  · intro hfree
    obtain ⟨d2, hrun⟩ := findAll_free tag p ts hfree 0 []
    unfold htmlFindAll
    rw [hrun]

/-- C1 witness: a stream whose div open tag is rejected by the predicate and
whose div close tag is present yields the empty string from HtmlFind, and a
stream with no div token yields the empty sequence from HtmlFindAll. -/
theorem claim_C1_witness :
    htmlFind [Tok.tagOpen "div" [("class", "x")], Tok.text "x", Tok.tagClose "div"]
      Terminal.eof "div" (some (htmlKeyInAttr "class" "y")) = Outcome.ok "" ∧
    htmlFindAll [Tok.text "x", Tok.tagOpen "p" [], Tok.tagClose "p"] Terminal.eof "div" none =
      Outcome.ok [] := by
  have h1 := claim_C1 [Tok.tagOpen "div" [("class", "x")], Tok.text "x", Tok.tagClose "div"]
    "div" (some (htmlKeyInAttr "class" "y")) (by decide)
  have h2 := claim_C1 [Tok.text "x", Tok.tagOpen "p" [], Tok.tagClose "p"] "div" none
    (by decide)
  exact ⟨h1.2.1, h2.2.2 (by decide)⟩

/-- C2 counterexample: with no predicate, a nested same-named open tag
re-records the capture depth, so HtmlFind on a div inside a div stops at
the inner close tag and returns a fragment that is not the rendering of the
whole outer element. -/
theorem claim_C2_cex :
    htmlFind [Tok.tagOpen "div" [], Tok.tagOpen "div" [], Tok.text "x",
        Tok.tagClose "div", Tok.tagClose "div"] Terminal.eof "div" none =
      Outcome.ok ("x" ++ (Tok.tagClose "div").render) ∧
    htmlFind [Tok.tagOpen "div" [], Tok.tagOpen "div" [], Tok.text "x",
        Tok.tagClose "div", Tok.tagClose "div"] Terminal.eof "div" none ≠
      Outcome.ok (rendersAll [Tok.tagOpen "div" [], Tok.tagOpen "div" [], Tok.text "x",
        Tok.tagClose "div", Tok.tagClose "div"]) := by
  refine ⟨by decide, by decide⟩

/-- C2 amended: the capture depth is left unchanged, and the fragment runs
through the outer close tag, exactly when every nested same-named open tag
fails the predicate; HtmlFind with a satisfied attribute predicate on the
outer open tag then returns the whole outer element, open tag through its
own close tag, even across a nested same-named element whose attributes
fail the predicate. -/
theorem claim_C2 (g body rest : List Tok) (tag : String) (f : AttrPred)
    (a : List (String × String)) (term : Terminal)
    (hg : Bal g) (hgf : tagFree tag g = true)
    (ha : htmlCheckAttrs (some f) a = true)
    (hb : Bal body) (hnr : ∀ t ∈ body, noReset tag (some f) t = true) :
    htmlFind (g ++ Tok.tagOpen tag a :: (body ++ Tok.tagClose tag :: rest)) term tag (some f) =
      Outcome.ok ((Tok.tagOpen tag a).render ++ rendersAll body ++
        (Tok.tagClose tag).render) := by
  unfold htmlFind
  rw [find_gap tag (some f) hg hgf 0 "" _ term, findRun_cons]
  have hany : (a.any fun kv => f kv.1 kv.2) = true := by
    simpa [htmlCheckAttrs] using ha
  have hstep : findStep tag (some f) ⟨0, -1, ""⟩ (Tok.tagOpen tag a) =
      (⟨1, 1, (Tok.tagOpen tag a).render⟩, false) := by
    simp [findStep, hany, writeIf]
  rw [hstep]
  simp only [Bool.false_eq_true, if_false]
  rw [find_seg tag (some f) hb hnr 1 1 _ _ term (by decide) (by omega), findRun_cons]
  have hstep2 : findStep tag (some f)
      ⟨1, 1, (Tok.tagOpen tag a).render ++ rendersAll body⟩ (Tok.tagClose tag) =
      (⟨0, 1, (Tok.tagOpen tag a).render ++ rendersAll body ++
        (Tok.tagClose tag).render⟩, true) := by
    simp [findStep, writeIf]
  rw [hstep2]
  simp

/-- C2 witness: the outer div with a matching class captures through its own
close tag across a nested plain div. -/
theorem claim_C2_witness :
    htmlFind [Tok.tagOpen "div" [("class", "c")], Tok.tagOpen "div" [], Tok.text "y",
        Tok.tagClose "div", Tok.tagClose "div"] Terminal.eof "div"
      (some (htmlKeyInAttr "class" "c")) =
      Outcome.ok "<div class=\"c\"><div>y</div></div>" := by
  have h := claim_C2 [] [Tok.tagOpen "div" [], Tok.text "y", Tok.tagClose "div"] []
    "div" (htmlKeyInAttr "class" "c") [("class", "c")] Terminal.eof Bal.nil (by decide)
    (by decide)
    (Bal.node "div" [] [Tok.text "y"] [] (Bal.txt "y" [] Bal.nil) Bal.nil)
    (by decide)
  exact h.trans (by decide)

/-- C3 counterexample: with no predicate the matching open tag is skipped by
the Go continue statement before the conditional write, so the returned
fragment lacks the opening tag and is not the full original markup of the
element. -/
theorem claim_C3_cex :
    htmlFind [Tok.tagOpen "div" [], Tok.text "x", Tok.tagClose "div"] Terminal.eof
      "div" none = Outcome.ok "x</div>" ∧
    "x</div>" ≠ rendersAll [Tok.tagOpen "div" [], Tok.text "x", Tok.tagClose "div"] := by
  refine ⟨by decide, by decide⟩

/-- C3 amended: on a well-formed stream with exactly one element named T and
no nested T, HtmlFind with no predicate returns the renderings of the tokens
after the opening tag through the matching close tag inclusive; the opening
tag rendering itself is omitted from the output. -/
theorem claim_C3 (g body rest : List Tok) (tag : String) (a : List (String × String))
    (term : Terminal) (hg : Bal g) (hgf : tagFree tag g = true)
    (hb : Bal body) (hbf : tagFree tag body = true) :
    htmlFind (g ++ Tok.tagOpen tag a :: (body ++ Tok.tagClose tag :: rest)) term tag none =
      Outcome.ok (rendersAll body ++ (Tok.tagClose tag).render) := by
  unfold htmlFind
  rw [find_gap tag none hg hgf 0 "" _ term, findRun_cons]
  have hstep : findStep tag none ⟨0, -1, ""⟩ (Tok.tagOpen tag a) = (⟨1, 1, ""⟩, false) := by
    simp [findStep]
  rw [hstep]
  simp only [Bool.false_eq_true, if_false]
  have hnr : ∀ t ∈ body, noReset tag none t = true :=
    fun t ht => noReset_of_free (tagFree_mem hbf t ht)
  rw [find_seg tag none hb hnr 1 1 "" _ term (by decide) (by omega), findRun_cons]
  have hstep2 : findStep tag none ⟨1, 1, "" ++ rendersAll body⟩ (Tok.tagClose tag) =
      (⟨0, 1, "" ++ rendersAll body ++ (Tok.tagClose tag).render⟩, true) := by
    simp [findStep, writeIf]
  rw [hstep2]
  simp

/-- C3 witness: the single div element is returned without its opening tag
and with its close tag. -/
theorem claim_C3_witness :
    htmlFind [Tok.text "a", Tok.tagOpen "div" [("id", "d")], Tok.tagOpen "p" [],
        Tok.text "x", Tok.tagClose "p", Tok.tagClose "div"] Terminal.eof "div" none =
      Outcome.ok "<p>x</p></div>" := by
  have h := claim_C3 [Tok.text "a"] [Tok.tagOpen "p" [], Tok.text "x", Tok.tagClose "p"] []
    "div" [("id", "d")] Terminal.eof (Bal.txt "a" [] Bal.nil) (by decide)
    (Bal.node "p" [] [Tok.text "x"] [] (Bal.txt "x" [] Bal.nil) Bal.nil) (by decide)
  exact h.trans (by decide)

/-- C4 counterexample: HtmlFind ignores a matching self-closing token
entirely, its handling being dead code behind a continue statement, and so
returns the empty string rather than the token rendering. -/
theorem claim_C4_cex :
    htmlFind [Tok.tagSelf "img" [("src", "u")]] Terminal.eof "img" none = Outcome.ok "" ∧
    (Tok.tagSelf "img" [("src", "u")]).render ≠ "" := by
  refine ⟨by decide, by decide⟩

/-- C4 amended: in HtmlFindAll a matching self-closing token is an immediate
single-token capture, appending exactly its rendering to the results while
writing it into the buffers of the open frames with no lookahead; in
HtmlFind the self-closing branch is unreachable and a same-named
self-closing token leaves the state unchanged. -/
theorem claim_C4 (tag : String) (p : Option AttrPred) (st : FindAllSt) (st2 : FindSt)
    (a : List (String × String)) (ha : htmlCheckAttrs p a = true) :
    findAllStep tag p st (Tok.tagSelf tag a) =
      some ⟨st.depth, pour (Tok.tagSelf tag a).render st.frames,
        st.ret ++ [(Tok.tagSelf tag a).render]⟩ ∧
    findStep tag p st2 (Tok.tagSelf tag a) = (st2, false) := by
  constructor
  · simp [findAllStep, ha, emit, pour, List.map_append, List.dropLast_concat,
      List.getLast?_concat]
  · simp [findStep]

/-- C4 witness: a lone matching self-closing image token produces exactly
its own rendering in the multi-match step and no state change in the
single-match step. -/
theorem claim_C4_witness :
    findAllStep "img" none ⟨0, [], []⟩ (Tok.tagSelf "img" []) =
      some ⟨0, [], ["<img/>"]⟩ ∧
    findStep "img" none ⟨0, -1, ""⟩ (Tok.tagSelf "img" []) = (⟨0, -1, ""⟩, false) := by
  have h := claim_C4 "img" none ⟨0, [], []⟩ ⟨0, -1, ""⟩ [] (by decide)
  exact ⟨h.1.trans (by decide), h.2⟩

/-- C6: on a well-formed stream of sibling non-nested elements named T, each
satisfying the predicate, with no other token named T, HtmlFindAll returns
exactly one fragment per element in document order, each fragment being the
concatenated renderings of that element from its open tag through its close
tag. -/
theorem claim_C6 (tag : String) (p : Option AttrPred) {s : List Tok}
    {es : List (List Tok)} (h : SibShape tag p s es) :
    htmlFindAll s Terminal.eof tag p = Outcome.ok (es.map rendersAll) := by
  obtain ⟨d2, hrun⟩ := sib_run tag p h 0 []
  unfold htmlFindAll
  rw [hrun]
  simp

/-- C6 witness: the two-sibling scenario of the specification yields the two
fragments in document order. -/
theorem claim_C6_witness :
    htmlFindAll [Tok.tagOpen "div" [("class", "a b")], Tok.tagOpen "p" [], Tok.text "x",
        Tok.tagClose "p", Tok.tagClose "div", Tok.tagOpen "div" [("class", "a")],
        Tok.tagOpen "p" [], Tok.text "y", Tok.tagClose "p", Tok.tagClose "div"]
      Terminal.eof "div" (some (htmlKeyInAttr "class" "a")) =
      Outcome.ok ["<div class=\"a b\"><p>x</p></div>", "<div class=\"a\"><p>y</p></div>"] := by
  have hb1 : Bal [Tok.tagOpen "p" [], Tok.text "x", Tok.tagClose "p"] :=
    Bal.node "p" [] [Tok.text "x"] [] (Bal.txt "x" [] Bal.nil) Bal.nil
  have hb2 : Bal [Tok.tagOpen "p" [], Tok.text "y", Tok.tagClose "p"] :=
    Bal.node "p" [] [Tok.text "y"] [] (Bal.txt "y" [] Bal.nil) Bal.nil
  have hshape := @SibShape.elem "div" (some (htmlKeyInAttr "class" "a"))
    [] [("class", "a b")] [Tok.tagOpen "p" [], Tok.text "x", Tok.tagClose "p"]
    (Tok.tagOpen "div" [("class", "a")] ::
      ([Tok.tagOpen "p" [], Tok.text "y", Tok.tagClose "p"] ++ Tok.tagClose "div" :: []))
    [Tok.tagOpen "div" [("class", "a")] ::
      ([Tok.tagOpen "p" [], Tok.text "y", Tok.tagClose "p"] ++ [Tok.tagClose "div"])]
    Bal.nil (by decide) (by decide) hb1 (by decide)
    (SibShape.elem [] [("class", "a")] [Tok.tagOpen "p" [], Tok.text "y", Tok.tagClose "p"]
      [] [] Bal.nil (by decide) (by decide) hb2 (by decide)
      (SibShape.base [] Bal.nil (by decide)))
  have h := claim_C6 "div" (some (htmlKeyInAttr "class" "a")) hshape
  exact h.trans (by decide)

end LnEpub
